import Mathlib

/-!
Verification of the Kingdom Wars match engine (the tester/engine script).

This file gives a shallow embedding of the engine: the tower and game
state, the cost formulas, the per-turn action validator, the combat and
economy resolver, fatigue, elimination tracking, rankings, the phase
orchestrator for one turn, and the process entry point's argument
padding.  JavaScript numbers appearing in agent-supplied payloads are
modelled as rationals (ℚ); engine-internal integer quantities (hp,
armor, resources, costs) are modelled as ℤ with the explicit clamps the
source performs.  In-place mutation of a tower inside the towers array
is modelled as replacement at its list position.
-/

namespace KingdomWars

-- CONFIG constants from the engine script.
def STARTING_HP : Int := 100

def STARTING_ARMOR : Int := 0

def STARTING_RESOURCES : Int := 0

def STARTING_LEVEL : Nat := 1

def MAX_LEVEL : Nat := 6

def FATIGUE_START_TURN : Nat := 25

def MAX_TURNS : Nat := 100

-- upgradeCost(level) = Math.floor(50 * Math.pow(1.75, level - 1)).
-- All intermediate float values are exactly representable for the levels
-- the game can reach, so the rational computation coincides with the
-- float one.
def upgradeCost (level : Nat) : Int :=
  Int.floor ((50 : ℚ) * (7 / 4 : ℚ) ^ (level - 1))

-- resourcesPerTurn(level) = Math.floor(20 * Math.pow(1.5, level - 1)).
def resourcesPerTurn (level : Nat) : Int :=
  Int.floor ((20 : ℚ) * (3 / 2 : ℚ) ^ (level - 1))

-- fatigueDamage(turn): 0 before FATIGUE_START_TURN, then
-- (turn - FATIGUE_START_TURN + 1) * 5.
def fatigueDamage (turn : Nat) : Int :=
  if turn < FATIGUE_START_TURN then 0
  else ((turn - FATIGUE_START_TURN + 1 : Nat) : Int) * 5

-- A tower: playerId, hp, armor, resources, level (botUrl and the display
-- name carry no game-state information and are omitted).
structure Tower where
  playerId : Nat
  hp : Int
  armor : Int
  resources : Int
  level : Nat
  deriving DecidableEq

def Tower.isAlive (t : Tower) : Bool := decide (0 < t.hp)

def mkTower (pid : Nat) : Tower :=
  { playerId := pid, hp := STARTING_HP, armor := STARTING_ARMOR,
    resources := STARTING_RESOURCES, level := STARTING_LEVEL }

-- A raw action as submitted by an agent.  Numeric fields are rationals
-- (arbitrary JS numbers); `other` stands for any array entry that is not
-- an object of one of the three recognized shapes with numeric fields
-- (the validator drops such entries without touching its running state).
inductive RawAction where
  | armor (amount : ℚ)
  | upgrade
  | attack (targetId : ℚ) (troopCount : ℚ)
  | other
  deriving DecidableEq

-- A validated action: amounts and troop counts have been truncated with
-- Math.floor; the attack target id is kept as the raw number.
inductive VAction where
  | armor (amount : Int)
  | upgrade
  | attack (targetId : ℚ) (troopCount : Int)
  deriving DecidableEq

def isArmorA : VAction → Bool
  | .armor _ => true
  | _ => false

def isUpgradeA : VAction → Bool
  | .upgrade => true
  | _ => false

-- Cost charged for a validated action, with upgrade priced at the given
-- tower level.
def vcost (level : Nat) : VAction → Int
  | .armor a => a
  | .upgrade => upgradeCost level
  | .attack _ tc => tc

def vcostSum (level : Nat) (v : List VAction) : Int :=
  (v.map (vcost level)).sum

def attackTargetIds (v : List VAction) : List ℚ :=
  v.filterMap (fun a => match a with
    | .attack tid _ => some tid
    | _ => none)

-- Running state of validateActions: the accepted list, the running
-- spent total, the one-armor and one-upgrade flags and the set of
-- already-accepted attack targets.
structure VState where
  validated : List VAction
  totalCost : Int
  hasArmor : Bool
  hasUpgrade : Bool
  attackTargets : List ℚ
  deriving DecidableEq

def initVState : VState := ⟨[], 0, false, false, []⟩

-- game.towers.find((t) => t.playerId === targetId), with the raw numeric
-- target id compared against the integer player id.
def findTower (towers : List Tower) (targetId : ℚ) : Option Tower :=
  towers.find? (fun t => decide ((t.playerId : ℚ) = targetId))

-- One iteration of the loop body of validateActions.  Check order is
-- exactly the source's; every failed check leaves the state unchanged.
def validateStep (tower : Tower) (towers : List Tower) (s : VState) :
    RawAction → VState
  | .armor amount =>
    if s.hasArmor then s
    else if amount ≤ 0 then s
    else if tower.resources < s.totalCost + Int.floor amount then s
    else { s with hasArmor := true, totalCost := s.totalCost + Int.floor amount,
                  validated := s.validated ++ [.armor (Int.floor amount)] }
  | .upgrade =>
    if s.hasUpgrade then s
    else if MAX_LEVEL ≤ tower.level then s
    else if tower.resources < s.totalCost + upgradeCost tower.level then s
    else { s with hasUpgrade := true,
                  totalCost := s.totalCost + upgradeCost tower.level,
                  validated := s.validated ++ [.upgrade] }
  | .attack targetId troopCount =>
    if troopCount ≤ 0 then s
    else if targetId ∈ s.attackTargets then s
    else
      match findTower towers targetId with
      | none => s
      | some target =>
        if target.isAlive then
          if target.playerId = tower.playerId then s
          else if tower.resources < s.totalCost + Int.floor troopCount then s
          else { s with attackTargets := s.attackTargets ++ [targetId],
                        totalCost := s.totalCost + Int.floor troopCount,
                        validated := s.validated ++ [.attack targetId (Int.floor troopCount)] }
        else s
  | .other => s

def validateActions (actions : List RawAction) (tower : Tower)
    (towers : List Tower) : List VAction :=
  (actions.foldl (validateStep tower towers) initVState).validated

-- A queued attack: attacker player id, raw target id, troop count.
structure Attack where
  playerId : Nat
  targetId : ℚ
  troopCount : Int
  deriving DecidableEq

-- A stored diplomacy message: sender player id plus the forwarded
-- {allyId, attackTargetId} payload.
structure DiploEntry where
  playerId : Nat
  allyId : ℚ
  attackTargetId : Option ℚ
  deriving DecidableEq

-- A raw /negotiate reply entry: `msg` for an object with a numeric
-- allyId field, `other` for anything else (dropped by the truthiness and
-- typeof checks).
inductive DiploMsg where
  | msg (allyId : ℚ) (attackTargetId : Option ℚ)
  | other
  deriving DecidableEq

-- Match state: turn counter, towers in participant order, last turn's
-- resolved attack list, diplomacy inbox (insertion-ordered map from the
-- raw allyId number to the received messages) and the elimination
-- record (playerId, turn of elimination).
structure Game where
  turn : Nat
  towers : List Tower
  previousAttacks : List Attack
  diplomacy : List (ℚ × List DiploEntry)
  eliminations : List (Nat × Nat)
  deriving DecidableEq

def Game.getAliveTowers (g : Game) : List Tower :=
  g.towers.filter Tower.isAlive

-- recordElimination: append {tower, turn} unless the player is already
-- recorded.
def Game.recordElimination (g : Game) (pid : Nat) : Game :=
  if g.eliminations.any (fun e => decide (e.1 = pid)) then g
  else { g with eliminations := g.eliminations ++ [(pid, g.turn)] }

-- getRankings: (playerId, elimination turn if any, rank); every alive
-- tower gets rank 1, then the eliminated towers in reverse elimination
-- order get ranks aliveCount+1, aliveCount+2, ...
def Game.getRankings (g : Game) : List (Nat × Option Nat × Nat) :=
  let alive := g.getAliveTowers
  alive.map (fun t => (t.playerId, (none : Option Nat), 1)) ++
    g.eliminations.reverse.enum.map
      (fun p => (p.2.1, some p.2.2, alive.length + 1 + p.1))

-- getWinner: the sole alive tower, if exactly one is alive.
def Game.getWinner (g : Game) : Option Tower :=
  if g.getAliveTowers.length = 1 then g.getAliveTowers.head? else none

-- Positions of the currently-alive towers; iterating over these indices
-- models the source's iteration over the (object-identity) snapshot
-- returned by getAliveTowers.
def aliveIndices (towers : List Tower) : List Nat :=
  (List.range towers.length).filter (fun i =>
    match towers[i]? with
    | some t => t.isAlive
    | none => false)

-- The action-processing loop body for one tower: armor and upgrade take
-- effect immediately, every accepted action's cost accumulates into
-- resourcesSpent, attacks are queued.
def processGo (pid : Nat) (t : Tower) (atks : List Attack) (spent : Int) :
    List VAction → Tower × List Attack × Int
  | [] => (t, atks, spent)
  | .armor a :: rest =>
      processGo pid { t with armor := t.armor + a } atks (spent + a) rest
  | .upgrade :: rest =>
      processGo pid { t with level := t.level + 1 } atks
        (spent + upgradeCost t.level) rest
  | .attack tid tc :: rest =>
      processGo pid t (atks ++ [⟨pid, tid, tc⟩]) (spent + tc) rest

-- Apply one tower's validated actions and debit the spent total once at
-- the end, returning the updated tower and its queued attacks.
def processActions (t : Tower) (acts : List VAction) : Tower × List Attack :=
  let r := processGo t.playerId t [] 0 acts
  ({ r.1 with resources := r.1.resources - r.2.2 }, r.2.1)

-- The attack queued by a tower for one accepted attack action.
def attackOf (pid : Nat) : VAction → Option Attack
  | .attack tid tc => some ⟨pid, tid, tc⟩
  | _ => none

-- Insertion-ordered map (JS Map) from player id to validated actions.
def assocSet (m : List (Nat × List VAction)) (k : Nat) (v : List VAction) :
    List (Nat × List VAction) :=
  if m.any (fun e => decide (e.1 = k)) then
    m.map (fun e => if e.1 = k then (k, v) else e)
  else m ++ [(k, v)]

def assocGet (m : List (Nat × List VAction)) (k : Nat) : List VAction :=
  match m.find? (fun e => decide (e.1 = k)) with
  | some e => e.2
  | none => []

-- One tower's contribution for the turn: a failed call or a non-array
-- payload contributes the empty action list, otherwise the validated
-- submission.
def respActions (g : Game) (resp : Nat → Option (List RawAction))
    (t : Tower) : List VAction :=
  match resp t.playerId with
  | some acts => validateActions acts t g.towers
  | none => []

-- The collection loop of combatPhase: validate each alive tower's reply
-- (or record the empty list) into the allActions map.
def collectStep (g : Game) (resp : Nat → Option (List RawAction))
    (m : List (Nat × List VAction)) (i : Nat) : List (Nat × List VAction) :=
  match g.towers[i]? with
  | some t => assocSet m t.playerId (respActions g resp t)
  | none => m

def collectActions (g : Game) (resp : Nat → Option (List RawAction)) :
    List (Nat × List VAction) :=
  (aliveIndices g.towers).foldl (collectStep g resp) []

-- The processing loop of combatPhase: per alive tower in order, apply
-- non-attack effects, debit resources, queue attacks.
def processStep (m : List (Nat × List VAction)) (acc : Game × List Attack)
    (i : Nat) : Game × List Attack :=
  match acc.1.towers[i]? with
  | some t =>
    ({ acc.1 with towers :=
         acc.1.towers.set i (processActions t (assocGet m t.playerId)).1 },
     acc.2 ++ (processActions t (assocGet m t.playerId)).2)
  | none => acc

def processPhase (g : Game) (m : List (Nat × List VAction)) :
    Game × List Attack :=
  (aliveIndices g.towers).foldl (processStep m) (g, [])

-- Replace the first list element satisfying p (the element that
-- Array.prototype.find would have returned and the source mutates).
def replaceFirst (p : Tower → Bool) (nt : Tower) : List Tower → List Tower
  | [] => []
  | t :: ts => if p t then nt :: ts else t :: replaceFirst p nt ts

def attackPred (targetId : ℚ) (t : Tower) : Bool :=
  decide ((t.playerId : ℚ) = targetId)

-- The damaged target after an attack: absorbed = min(armor, troopCount)
-- comes off armor, the remainder off hp, clamped at 0.
def damagedTower (target : Tower) (troopCount : Int) : Tower :=
  { target with
    armor := target.armor - min target.armor troopCount,
    hp := max 0 (target.hp - (troopCount - min target.armor troopCount)) }

-- Resolve a single queued attack against the current state.
def resolveAttack (g : Game) (atk : Attack) : Game :=
  match g.towers.find? (attackPred atk.targetId) with
  | none => g
  | some target =>
    if target.isAlive then
      if (damagedTower target atk.troopCount).hp ≤ 0 then
        Game.recordElimination
          { g with towers := replaceFirst (attackPred atk.targetId) (damagedTower target atk.troopCount) g.towers }
          target.playerId
      else
        { g with towers := replaceFirst (attackPred atk.targetId) (damagedTower target atk.troopCount) g.towers }
    else g

def resolveAttacks (g : Game) (attacks : List Attack) : Game :=
  attacks.foldl resolveAttack g

-- combatPhase: collect and validate replies, process actions, resolve
-- the queued attacks sequentially, then store the queue as
-- previousAttacks for the next turn.
def combatPhase (g : Game) (resp : Nat → Option (List RawAction)) : Game :=
  let m := collectActions g resp
  let r := processPhase g m
  { resolveAttacks r.1 r.2 with previousAttacks := r.2 }

-- Map get-or-create-then-push used for the diplomacy inbox.
def diploPush (m : List (ℚ × List DiploEntry)) (k : ℚ) (v : DiploEntry) :
    List (ℚ × List DiploEntry) :=
  if m.any (fun e => decide (e.1 = k)) then
    m.map (fun e => if e.1 = k then (e.1, e.2 ++ [v]) else e)
  else m ++ [(k, [v])]

-- negotiationPhase: per alive tower, a successful array reply has each
-- entry with a truthy numeric allyId appended to that ally's inbox;
-- failures and malformed entries contribute nothing.
def negMsgStep (pid : Nat) (g2 : Game) (m : DiploMsg) : Game :=
  match m with
  | .msg allyId atkTgt =>
    if allyId = 0 then g2
    else { g2 with diplomacy :=
             diploPush g2.diplomacy allyId ⟨pid, allyId, atkTgt⟩ }
  | .other => g2

def negTowerStep (resp : Nat → Option (List DiploMsg)) (g1 : Game)
    (t : Tower) : Game :=
  match resp t.playerId with
  | none => g1
  | some msgs => msgs.foldl (negMsgStep t.playerId) g1

def negotiationPhase (g : Game) (resp : Nat → Option (List DiploMsg)) : Game :=
  g.getAliveTowers.foldl (negTowerStep resp) g

-- Income for every alive tower.
def applyResourceGeneration (g : Game) : Game :=
  { g with towers := g.towers.map (fun t =>
      if t.isAlive then
        { t with resources := t.resources + resourcesPerTurn t.level }
      else t) }

-- applyFatigue: when the damage is positive, every alive tower loses it
-- from hp directly (armor untouched), clamped at 0, each possibly
-- triggering its own elimination record.
def fatigueStep (d : Int) (g1 : Game) (i : Nat) : Game :=
  match g1.towers[i]? with
  | some t =>
    if max 0 (t.hp - d) ≤ 0 then
      Game.recordElimination
        { g1 with towers := g1.towers.set i { t with hp := max 0 (t.hp - d) } }
        t.playerId
    else { g1 with towers := g1.towers.set i { t with hp := max 0 (t.hp - d) } }
  | none => g1

def applyFatigue (g : Game) : Game :=
  if 0 < fatigueDamage g.turn then
    (aliveIndices g.towers).foldl (fatigueStep (fatigueDamage g.turn)) g
  else g

-- The per-turn responses of all agents, keyed by player id; `none`
-- stands for a transport failure, timeout, non-JSON body or non-array
-- payload.
structure AgentTurnInput where
  negotiate : Nat → Option (List DiploMsg)
  combat : Nat → Option (List RawAction)

-- One iteration of the main game loop: increment the turn, clear the
-- diplomacy inbox, apply income, negotiation, combat, fatigue.
def gameTurn (g : Game) (inp : AgentTurnInput) : Game :=
  let g1 : Game := { g with turn := g.turn + 1, diplomacy := [] }
  let g2 := applyResourceGeneration g1
  let g3 := negotiationPhase g2 inp.negotiate
  applyFatigue (combatPhase g3 inp.combat)

-- Initial match state for n participants (player ids 1..n).
def mkGame (n : Nat) : Game :=
  { turn := 0, towers := (List.range n).map (fun i => mkTower (i + 1)),
    previousAttacks := [], diplomacy := [], eliminations := [] }

-- States the engine can be in at a turn boundary, for any sequence of
-- agent responses.
inductive Reachable : Game → Prop where
  | init (n : Nat) : Reachable (mkGame n)
  | step (g : Game) (inp : AgentTurnInput) : Reachable g → Reachable (gameTurn g inp)

-- The process entry point's argument handling.
inductive StartupResult where
  | usageError
  | run (slots : List String)
  deriving DecidableEq

-- The padding loop `while (args.length < 4) args.push(args[args.length %
-- args.length])`, rendered with fuel 4: each iteration grows the list by
-- one element and the loop stops at length 4, so the source loop runs at
-- most 4 iterations.
def padLoop : Nat → List String → List String
  | 0, args => args
  | fuel + 1, args =>
    if args.length < 4 then
      padLoop fuel (args ++ [args.getD (args.length % args.length) ""])
    else args

-- Entry point: fewer than 2 addresses is a usage error (process exit 1
-- before any match); otherwise the padded list's first 4 entries are the
-- participant slots handed to runGame.
def kwMain (args : List String) : StartupResult :=
  if args.length < 2 then .usageError
  else .run ((padLoop 4 args).take 4)

-- ===== Invariants and specification predicates =====

-- Invariant of the validator's running state: the running total is the
-- cost sum of the accepted list, is nonnegative, and fits the budget
-- unless nothing was accepted; the flags bound the armor/upgrade counts;
-- the target set is exactly the accepted attack targets, without
-- duplicates; every accepted attack names an alive, non-self tower; an
-- upgrade was only accepted below MAX_LEVEL.
structure VInv (tower : Tower) (towers : List Tower) (s : VState) : Prop where
  cost_eq : s.totalCost = vcostSum tower.level s.validated
  cost_nonneg : 0 ≤ s.totalCost
  budget : s.validated = [] ∨ s.totalCost ≤ tower.resources
  armor_count : s.validated.countP isArmorA ≤ 1
  armor_flag : s.hasArmor = false → s.validated.countP isArmorA = 0
  upg_count : s.validated.countP isUpgradeA ≤ 1
  upg_flag : s.hasUpgrade = false → s.validated.countP isUpgradeA = 0
  targets_eq : attackTargetIds s.validated = s.attackTargets
  targets_nodup : s.attackTargets.Nodup
  armor_nonneg : ∀ a : Int, VAction.armor a ∈ s.validated → 0 ≤ a
  attack_ok : ∀ (tid : ℚ) (tc : Int), VAction.attack tid tc ∈ s.validated →
    0 ≤ tc ∧ ∃ target, findTower towers tid = some target ∧
      target.isAlive = true ∧ target.playerId ≠ tower.playerId
  upgrade_ok : VAction.upgrade ∈ s.validated → tower.level < MAX_LEVEL

-- The elimination-record invariant: player ids are unique, hp is never
-- negative, a tower is recorded as eliminated exactly when its hp is 0,
-- and no tower is recorded twice.
def ElimOk (g : Game) : Prop :=
  (g.towers.map Tower.playerId).Nodup ∧
  (∀ t ∈ g.towers,
    0 ≤ t.hp ∧ (t.hp = 0 ↔ t.playerId ∈ g.eliminations.map Prod.fst)) ∧
  (g.eliminations.map Prod.fst).Nodup

-- g1 extends g by appending elimination entries recorded at g's current
-- turn, leaving the turn counter unchanged.
def ElimExtend (g g1 : Game) : Prop :=
  g1.turn = g.turn ∧
  ∃ l, g1.eliminations = g.eliminations ++ l ∧ ∀ e ∈ l, e.2 = g.turn

-- ===== Concrete states used to exercise the theorems =====

-- Two towers at 5 hp on turn 25: fatigue (5 damage) kills both in the
-- same turn.
def fatigueDrawGame : Game :=
  { turn := 25,
    towers := [{ mkTower 1 with hp := 5 }, { mkTower 2 with hp := 5 }],
    previousAttacks := [], diplomacy := [], eliminations := [] }

-- A target with hp 40 and armor 30 (the worked example of the spec).
def attackDemoGame : Game :=
  { turn := 3,
    towers := [mkTower 1, { mkTower 2 with hp := 40, armor := 30 }],
    previousAttacks := [], diplomacy := [], eliminations := [] }

def demoTower : Tower := { mkTower 1 with resources := 10 }

def demoTowers : List Tower := [demoTower, mkTower 2]

-- ===== Generic fold helpers =====

theorem foldl_preserve {σ α : Type _} (P : σ → Prop) (step : σ → α → σ)
    (h : ∀ s a, P s → P (step s a)) :
    ∀ (l : List α) (s : σ), P s → P (l.foldl step s) := by
  intro l
  induction l with
  | nil => exact fun s hs => hs
  | cons a l ih => exact fun s hs => ih _ (h s a hs)

theorem foldl_congr_step {σ α : Type _} (s1 s2 : σ → α → σ)
    (h : ∀ s a, s1 s a = s2 s a) :
    ∀ (l : List α) (s : σ), l.foldl s1 s = l.foldl s2 s := by
  intro l
  induction l with
  | nil => intro s; rfl
  | cons a l ih => intro s; rw [List.foldl_cons, List.foldl_cons, h, ih]

theorem list_set_same {α : Type _} :
    ∀ (l : List α) (i : Nat) (a : α), l[i]? = some a → l.set i a = l := by
  intro l
  induction l with
  | nil => intro i a h; simp at h
  | cons x l ih =>
    intro i a h
    cases i with
    | zero =>
      simp only [List.getElem?_cons_zero, Option.some.injEq] at h
      simp [List.set, h]
    | succ n =>
      simp only [List.getElem?_cons_succ] at h
      simp [List.set, ih n a h]

theorem nodup_append_single {α : Type _} (l : List α) (a : α)
    (h1 : l.Nodup) (h2 : a ∉ l) : (l ++ [a]).Nodup := by
  rw [List.nodup_append]
  refine ⟨h1, List.nodup_singleton a, ?_⟩
  intro x hx hmem
  rw [List.mem_singleton] at hmem
  exact h2 (hmem ▸ hx)

-- ===== Cost arithmetic =====

theorem floor_nonneg_of_pos {q : ℚ} (h : 0 < q) : 0 ≤ Int.floor q :=
  Int.floor_nonneg.mpr (le_of_lt h)

theorem upgradeCost_nonneg (level : Nat) : 0 ≤ upgradeCost level := by
  unfold upgradeCost
  exact Int.floor_nonneg.mpr (by positivity)

theorem vcostSum_append (level : Nat) (v w : List VAction) :
    vcostSum level (v ++ w) = vcostSum level v + vcostSum level w := by
  simp [vcostSum]

theorem vcostSum_cons (level : Nat) (a : VAction) (v : List VAction) :
    vcostSum level (a :: v) = vcost level a + vcostSum level v := by
  simp [vcostSum]

theorem vcostSum_single (level : Nat) (a : VAction) :
    vcostSum level [a] = vcost level a := by
  simp [vcostSum]

theorem attackTargetIds_append (v w : List VAction) :
    attackTargetIds (v ++ w) = attackTargetIds v ++ attackTargetIds w := by
  simp [attackTargetIds]

theorem attackTargetIds_armor_single (a : Int) :
    attackTargetIds [VAction.armor a] = [] := rfl

theorem attackTargetIds_upgrade_single :
    attackTargetIds [VAction.upgrade] = [] := rfl

theorem attackTargetIds_attack_single (tid : ℚ) (tc : Int) :
    attackTargetIds [VAction.attack tid tc] = [tid] := rfl

-- ===== Validator invariant =====

theorem vInv_init (tower : Tower) (towers : List Tower) :
    VInv tower towers initVState where
  cost_eq := rfl
  cost_nonneg := le_refl 0
  budget := Or.inl rfl
  armor_count := by simp [initVState]
  armor_flag := fun _ => by simp [initVState]
  upg_count := by simp [initVState]
  upg_flag := fun _ => by simp [initVState]
  targets_eq := rfl
  targets_nodup := List.nodup_nil
  armor_nonneg := by simp [initVState]
  attack_ok := by simp [initVState]
  upgrade_ok := by simp [initVState]

theorem vInv_step (tower : Tower) (towers : List Tower) (s : VState)
    (a : RawAction) (h : VInv tower towers s) :
    VInv tower towers (validateStep tower towers s a) := by
  cases a with
  | other => exact h
  | armor amount =>
    simp only [validateStep]
    split_ifs with h1 h2 h3
    · exact h
    · exact h
    · exact h
    · have hflag : s.hasArmor = false := by
        revert h1; cases s.hasArmor <;> simp
      have hamt : 0 ≤ Int.floor amount := floor_nonneg_of_pos (lt_of_not_le h2)
      have hbud : s.totalCost + Int.floor amount ≤ tower.resources :=
        le_of_not_lt h3
      refine ⟨?_, ?_, ?_, ?_, ?_, ?_, ?_, ?_, ?_, ?_, ?_, ?_⟩
      · simp [vcostSum_append, vcostSum_single, vcost, h.cost_eq]
      · exact add_nonneg h.cost_nonneg hamt
      · exact Or.inr hbud
      · simp [List.countP_append, List.countP_cons, isArmorA, h.armor_flag hflag]
      · intro hh; cases hh
      · simpa [List.countP_append, List.countP_cons, isUpgradeA] using h.upg_count
      · intro hfu
        simpa [List.countP_append, List.countP_cons, isUpgradeA] using h.upg_flag hfu
      · simp [attackTargetIds_append, attackTargetIds_armor_single, h.targets_eq]
      · exact h.targets_nodup
      · intro a1 ha1
        rcases List.mem_append.mp ha1 with hm | hm
        · exact h.armor_nonneg a1 hm
        · rw [List.mem_singleton, VAction.armor.injEq] at hm
          exact hm ▸ hamt
      · intro tid tc hm
        rcases List.mem_append.mp hm with hm1 | hm1
        · exact h.attack_ok tid tc hm1
        · simp at hm1
      · intro hm
        rcases List.mem_append.mp hm with hm1 | hm1
        · exact h.upgrade_ok hm1
        · simp at hm1
  | upgrade =>
    simp only [validateStep]
    split_ifs with h1 h2 h3
    · exact h
    · exact h
    · exact h
    · have hflag : s.hasUpgrade = false := by
        revert h1; cases s.hasUpgrade <;> simp
      have hlvl : tower.level < MAX_LEVEL := Nat.lt_of_not_le h2
      have hbud : s.totalCost + upgradeCost tower.level ≤ tower.resources :=
        le_of_not_lt h3
      refine ⟨?_, ?_, ?_, ?_, ?_, ?_, ?_, ?_, ?_, ?_, ?_, ?_⟩
      · simp [vcostSum_append, vcostSum_single, vcost, h.cost_eq]
      · exact add_nonneg h.cost_nonneg (upgradeCost_nonneg tower.level)
      · exact Or.inr hbud
      · simpa [List.countP_append, List.countP_cons, isArmorA] using h.armor_count
      · intro hfa
        simpa [List.countP_append, List.countP_cons, isArmorA] using h.armor_flag hfa
      · simp [List.countP_append, List.countP_cons, isUpgradeA, h.upg_flag hflag]
      · intro hh; cases hh
      · simp [attackTargetIds_append, attackTargetIds_upgrade_single, h.targets_eq]
      · exact h.targets_nodup
      · intro a1 ha1
        rcases List.mem_append.mp ha1 with hm | hm
        · exact h.armor_nonneg a1 hm
        · simp at hm
      · intro tid tc hm
        rcases List.mem_append.mp hm with hm1 | hm1
        · exact h.attack_ok tid tc hm1
        · simp at hm1
      · intro _; exact hlvl
  | attack targetId troopCount =>
    simp only [validateStep]
    by_cases h1 : troopCount ≤ 0
    · rw [if_pos h1]; exact h
    rw [if_neg h1]
    by_cases h2 : targetId ∈ s.attackTargets
    · rw [if_pos h2]; exact h
    rw [if_neg h2]
    cases hfind : findTower towers targetId with
    | none => exact h
    | some target =>
      dsimp only
      by_cases halive : target.isAlive = true
      · rw [if_pos halive]
        by_cases hself : target.playerId = tower.playerId
        · rw [if_pos hself]; exact h
        rw [if_neg hself]
        by_cases hbud : tower.resources < s.totalCost + Int.floor troopCount
        · rw [if_pos hbud]; exact h
        rw [if_neg hbud]
        have htc : 0 ≤ Int.floor troopCount :=
          floor_nonneg_of_pos (lt_of_not_le h1)
        refine ⟨?_, ?_, ?_, ?_, ?_, ?_, ?_, ?_, ?_, ?_, ?_, ?_⟩
        · simp [vcostSum_append, vcostSum_single, vcost, h.cost_eq]
        · exact add_nonneg h.cost_nonneg htc
        · exact Or.inr (le_of_not_lt hbud)
        · simpa [List.countP_append, List.countP_cons, isArmorA] using h.armor_count
        · intro hfa
          simpa [List.countP_append, List.countP_cons, isArmorA] using h.armor_flag hfa
        · simpa [List.countP_append, List.countP_cons, isUpgradeA] using h.upg_count
        · intro hfu
          simpa [List.countP_append, List.countP_cons, isUpgradeA] using h.upg_flag hfu
        · simp [attackTargetIds_append, attackTargetIds_attack_single, h.targets_eq]
        · exact nodup_append_single s.attackTargets targetId h.targets_nodup h2
        · intro a1 ha1
          rcases List.mem_append.mp ha1 with hm | hm
          · exact h.armor_nonneg a1 hm
          · simp at hm
        · intro tid tc hm
          rcases List.mem_append.mp hm with hm1 | hm1
          · exact h.attack_ok tid tc hm1
          · rw [List.mem_singleton, VAction.attack.injEq] at hm1
            refine ⟨hm1.2 ▸ htc, target, hm1.1 ▸ hfind, halive, hself⟩
        · intro hm
          rcases List.mem_append.mp hm with hm1 | hm1
          · exact h.upgrade_ok hm1
          · simp at hm1
      · rw [if_neg halive]; exact h

theorem vInv_validate (acts : List RawAction) (tower : Tower)
    (towers : List Tower) :
    VInv tower towers (acts.foldl (validateStep tower towers) initVState) :=
  foldl_preserve (VInv tower towers) (validateStep tower towers)
    (fun s a hs => vInv_step tower towers s a hs) acts initVState
    (vInv_init tower towers)

-- ===== Action processing =====

theorem vcostSum_level_eq (acts : List VAction)
    (h : acts.countP isUpgradeA = 0) (l1 l2 : Nat) :
    vcostSum l1 acts = vcostSum l2 acts := by
  induction acts with
  | nil => rfl
  | cons a rest ih =>
    cases a with
    | upgrade => simp [List.countP_cons, isUpgradeA] at h
    | armor x =>
      simp only [List.countP_cons, isUpgradeA, if_neg] at h
      simp only [vcostSum_cons, vcost]
      rw [ih (by simpa using h)]
    | attack tid tc =>
      simp only [List.countP_cons, isUpgradeA, if_neg] at h
      simp only [vcostSum_cons, vcost]
      rw [ih (by simpa using h)]

theorem processGo_spec (pid : Nat) :
    ∀ (acts : List VAction) (t : Tower) (atks : List Attack) (spent : Int),
      (processGo pid t atks spent acts).1.hp = t.hp ∧
      (processGo pid t atks spent acts).1.playerId = t.playerId ∧
      (processGo pid t atks spent acts).1.resources = t.resources ∧
      (processGo pid t atks spent acts).2.1 = atks ++ acts.filterMap (attackOf pid) ∧
      (acts.countP isUpgradeA ≤ 1 →
        (processGo pid t atks spent acts).2.2 = spent + vcostSum t.level acts) := by
  intro acts
  induction acts with
  | nil =>
    intro t atks spent
    simp [processGo, vcostSum]
  | cons a rest ih =>
    intro t atks spent
    cases a with
    | armor x =>
      simp only [processGo]
      have hr := ih { t with armor := t.armor + x } atks (spent + x)
      refine ⟨hr.1, hr.2.1, hr.2.2.1, ?_, ?_⟩
      · rw [hr.2.2.2.1]
        simp [attackOf, List.filterMap_cons]
      · intro hc
        have hc1 : rest.countP isUpgradeA ≤ 1 := by
          simpa [List.countP_cons, isUpgradeA] using hc
        rw [hr.2.2.2.2 hc1, vcostSum_cons]
        simp only [vcost]
        ring
    | upgrade =>
      simp only [processGo]
      have hr := ih { t with level := t.level + 1 } atks (spent + upgradeCost t.level)
      refine ⟨hr.1, hr.2.1, hr.2.2.1, ?_, ?_⟩
      · rw [hr.2.2.2.1]
        simp [attackOf, List.filterMap_cons]
      · intro hc
        have hc0 : rest.countP isUpgradeA = 0 := by
          simp only [List.countP_cons, isUpgradeA, if_pos] at hc
          omega
        rw [hr.2.2.2.2 (by simp [hc0]), vcostSum_cons]
        simp only [vcost]
        rw [vcostSum_level_eq rest hc0 (t.level + 1) t.level]
        ring
    | attack tid tc =>
      simp only [processGo]
      have hr := ih t (atks ++ [⟨pid, tid, tc⟩]) (spent + tc)
      refine ⟨hr.1, hr.2.1, hr.2.2.1, ?_, ?_⟩
      · rw [hr.2.2.2.1]
        simp [attackOf, List.filterMap_cons]
      · intro hc
        have hc1 : rest.countP isUpgradeA ≤ 1 := by
          simpa [List.countP_cons, isUpgradeA] using hc
        rw [hr.2.2.2.2 hc1, vcostSum_cons]
        simp only [vcost]
        ring

theorem processActions_spec (t : Tower) (acts : List VAction)
    (h : acts.countP isUpgradeA ≤ 1) :
    (processActions t acts).1.resources = t.resources - vcostSum t.level acts ∧
    (processActions t acts).1.hp = t.hp ∧
    (processActions t acts).1.playerId = t.playerId ∧
    (processActions t acts).2 = acts.filterMap (attackOf t.playerId) := by
  have hr := processGo_spec t.playerId acts t [] 0
  refine ⟨?_, hr.1, hr.2.1, by simpa using hr.2.2.2.1⟩
  show (processGo t.playerId t [] 0 acts).1.resources
      - (processGo t.playerId t [] 0 acts).2.2 = _
  rw [hr.2.2.1, hr.2.2.2.2 h, zero_add]

-- ===== Claims about the validator =====

/-- Claim C3: for every tower and every raw action list submitted in a
turn, the cost sum of the validator's accepted actions (armor amounts,
the upgrade cost at the tower's level, attack troop counts) never
exceeds the tower's resources as they stood at validation time, and the
subsequent single debit of exactly that sum leaves the resources
nonnegative. -/
theorem no_overspend (acts : List RawAction) (tower : Tower)
    (towers : List Tower) (h : 0 ≤ tower.resources) :
    vcostSum tower.level (validateActions acts tower towers) ≤ tower.resources ∧
    (processActions tower (validateActions acts tower towers)).1.resources
      = tower.resources - vcostSum tower.level (validateActions acts tower towers) ∧
    0 ≤ (processActions tower (validateActions acts tower towers)).1.resources := by
  have hv := vInv_validate acts tower towers
  have hle : vcostSum tower.level (validateActions acts tower towers)
      ≤ tower.resources := by
    rcases hv.budget with hemp | hbud
    · unfold validateActions
      rw [hemp]
      simpa [vcostSum] using h
    · unfold validateActions
      rw [← hv.cost_eq]
      exact hbud
  have hps := processActions_spec tower (validateActions acts tower towers)
    hv.upg_count
  refine ⟨hle, hps.1, ?_⟩
  rw [hps.1]
  omega

theorem no_overspend_witness :
    (0 : Int) ≤ demoTower.resources ∧
    vcostSum demoTower.level
        (validateActions [RawAction.armor 3, RawAction.attack 2 4]
          demoTower demoTowers)
      ≤ demoTower.resources :=
  ⟨by decide,
   (no_overspend [RawAction.armor 3, RawAction.attack 2 4] demoTower demoTowers
     (by decide)).1⟩

/-- Claim C4: per submission the validator accepts at most one armor
action and at most one upgrade action; accepted attack target ids are
pairwise distinct and each names a different, currently-alive tower; an
upgrade is accepted only below MAX_LEVEL; and rejection is local: an
action that left the running state unchanged can be removed without
affecting how the later actions are validated. -/
theorem validator_acceptance_shape (acts : List RawAction) (tower : Tower)
    (towers : List Tower) :
    (validateActions acts tower towers).countP isArmorA ≤ 1 ∧
    (validateActions acts tower towers).countP isUpgradeA ≤ 1 ∧
    (attackTargetIds (validateActions acts tower towers)).Nodup ∧
    (∀ (tid : ℚ) (tc : Int),
      VAction.attack tid tc ∈ validateActions acts tower towers →
      ∃ target, target ∈ towers ∧ target.isAlive = true ∧
        (target.playerId : ℚ) = tid ∧ target.playerId ≠ tower.playerId) ∧
    (VAction.upgrade ∈ validateActions acts tower towers →
      tower.level < MAX_LEVEL) ∧
    (∀ (pre : List RawAction) (a : RawAction) (post : List RawAction),
      validateStep tower towers (pre.foldl (validateStep tower towers) initVState) a
        = pre.foldl (validateStep tower towers) initVState →
      validateActions (pre ++ a :: post) tower towers
        = validateActions (pre ++ post) tower towers) := by
  have hv := vInv_validate acts tower towers
  refine ⟨hv.armor_count, hv.upg_count, ?_, ?_, hv.upgrade_ok, ?_⟩
  · unfold validateActions
    rw [hv.targets_eq]
    exact hv.targets_nodup
  · intro tid tc hm
    obtain ⟨htc, target, hfind, halive, hne⟩ := hv.attack_ok tid tc hm
    unfold findTower at hfind
    refine ⟨target, List.mem_of_find?_eq_some hfind, halive, ?_, hne⟩
    have hp := List.find?_some hfind
    simpa using hp
  · intro pre a post heq
    unfold validateActions
    rw [List.foldl_append, List.foldl_cons, heq, ← List.foldl_append]

theorem validator_acceptance_shape_witness :
    validateActions ([] ++ RawAction.other :: []) demoTower demoTowers
      = validateActions ([] ++ []) demoTower demoTowers :=
  (validator_acceptance_shape [] demoTower demoTowers).2.2.2.2.2
    [] RawAction.other [] rfl

/-- Claim C10: the validator's positivity checks are applied to the raw
number before truncation, so an armor amount strictly between 0 and 1 is
accepted with truncated amount 0 (adding 0 armor at 0 cost while
consuming the one-armor-per-turn slot), and an attack troop count
strictly between 0 and 1 is accepted with troop count 0 (a recorded
zero-damage attack that still consumes its target's duplicate-target
slot). -/
theorem fractional_actions_accepted (tower : Tower) (towers : List Tower)
    (s : VState) (amount tid tc : ℚ) (target : Tower)
    (hamount1 : 0 < amount) (hamount2 : amount < 1)
    (harm : s.hasArmor = false) (hbud : s.totalCost ≤ tower.resources)
    (htc1 : 0 < tc) (htc2 : tc < 1) (hdup : tid ∉ s.attackTargets)
    (hfind : findTower towers tid = some target)
    (halive : target.isAlive = true)
    (hself : target.playerId ≠ tower.playerId) :
    Int.floor amount = 0 ∧ Int.floor tc = 0 ∧
    validateStep tower towers s (.armor amount)
      = { s with hasArmor := true, validated := s.validated ++ [.armor 0] } ∧
    validateStep tower towers s (.attack tid tc)
      = { s with attackTargets := s.attackTargets ++ [tid],
                 validated := s.validated ++ [.attack tid 0] } := by
  have hfa : Int.floor amount = 0 := by
    rw [Int.floor_eq_zero_iff, Set.mem_Ico]
    exact ⟨le_of_lt hamount1, hamount2⟩
  have hft : Int.floor tc = 0 := by
    rw [Int.floor_eq_zero_iff, Set.mem_Ico]
    exact ⟨le_of_lt htc1, htc2⟩
  have hb2 : ¬ tower.resources < s.totalCost := not_lt.mpr hbud
  refine ⟨hfa, hft, ?_, ?_⟩
  · simp [validateStep, harm, hfa, not_le.mpr hamount1, hb2]
  · simp [validateStep, hfa, hft, not_le.mpr htc1, hdup, hfind, halive, hself, hb2]

theorem fractional_actions_accepted_witness :
    0 < (1 / 2 : ℚ) ∧ Int.floor ((1 / 2 : ℚ)) = 0 :=
  ⟨by norm_num,
   (fractional_actions_accepted demoTower demoTowers initVState
     (1 / 2) 2 (1 / 2) (mkTower 2)
     (by norm_num) (by norm_num) rfl (by decide) (by norm_num) (by norm_num)
     (by simp [initVState])
     (by norm_num [findTower, demoTowers, demoTower, mkTower, List.find?])
     (by decide) (by decide)).1⟩

-- ===== Claim C7: cost formulas =====

/-- Claim C7: upgradeCost(level) = floor(50·1.75^(level−1)) and
resourcesPerTurn(level) = floor(20·1.5^(level−1)) are strictly
increasing over the valid range of levels 1..6, with upgradeCost values
50, 87, 153 and resourcesPerTurn values 20, 30 at the first levels. -/
theorem cost_formulas :
    upgradeCost 1 = 50 ∧ upgradeCost 2 = 87 ∧ upgradeCost 3 = 153 ∧
    resourcesPerTurn 1 = 20 ∧ resourcesPerTurn 2 = 30 ∧
    (∀ l, 1 ≤ l → l < 6 →
      upgradeCost l < upgradeCost (l + 1) ∧
      resourcesPerTurn l < resourcesPerTurn (l + 1)) := by
  refine ⟨by norm_num [upgradeCost], by norm_num [upgradeCost],
    by norm_num [upgradeCost], by norm_num [resourcesPerTurn],
    by norm_num [resourcesPerTurn], ?_⟩
  intro l h1 h2
  interval_cases l <;>
    exact ⟨by norm_num [upgradeCost], by norm_num [resourcesPerTurn]⟩

theorem cost_formulas_witness :
    (1 : Nat) ≤ 2 ∧ (2 : Nat) < 6 ∧ upgradeCost 2 < upgradeCost 3 :=
  ⟨by decide, by decide, (cost_formulas.2.2.2.2.2 2 (by decide) (by decide)).1⟩

-- ===== Claim C2: startup argument padding =====

/-- Claim C2 counterexample: with exactly two addresses the engine's
padding loop appends the first address twice, because its index
expression args.length % args.length is always 0 — the slots for
addresses a,b are a,b,a,a, not the cyclic a,b,a,b the claim states. -/
theorem cyclic_padding_counterexample :
    kwMain ["a", "b"] = StartupResult.run ["a", "b", "a", "a"] ∧
    kwMain ["a", "b"] ≠ StartupResult.run ["a", "b", "a", "b"] := by
  constructor
  · rfl
  · intro hcontra
    rw [show kwMain ["a", "b"] = StartupResult.run ["a", "b", "a", "a"] from rfl,
      StartupResult.run.injEq] at hcontra
    simp at hcontra

/-- Claim C2 (amended): fewer than 2 addresses is a usage error with a
nonzero exit before any match runs; 2 addresses a,b fill the 4 slots as
a,b,a,a (the padding loop always appends the first supplied address,
since its push index args.length % args.length is always 0); 3 addresses
a,b,c fill the slots as a,b,c,a; 4 or more addresses use the first 4 as
given. -/
theorem startup_padding :
    (∀ args : List String, args.length < 2 →
      kwMain args = StartupResult.usageError) ∧
    (∀ a b : String, kwMain [a, b] = StartupResult.run [a, b, a, a]) ∧
    (∀ a b c : String, kwMain [a, b, c] = StartupResult.run [a, b, c, a]) ∧
    (∀ args : List String, 4 ≤ args.length →
      kwMain args = StartupResult.run (args.take 4)) := by
  refine ⟨?_, ?_, ?_, ?_⟩
  · intro args h
    simp [kwMain, h]
  · intro a b
    simp [kwMain, padLoop, List.getD]
  · intro a b c
    simp [kwMain, padLoop, List.getD]
  · intro args h
    have h2 : ¬ args.length < 2 := by omega
    have h4 : ¬ args.length < 4 := by omega
    simp [kwMain, padLoop, h2, h4]

theorem startup_padding_witness :
    ([] : List String).length < 2 ∧
    kwMain [] = StartupResult.usageError ∧
    kwMain ["a", "b", "c"] = StartupResult.run ["a", "b", "c", "a"] :=
  ⟨by decide, startup_padding.1 [] (by decide), startup_padding.2.2.1 "a" "b" "c"⟩

-- ===== Game-state helper lemmas =====

theorem mem_aliveIndices (towers : List Tower) (j : Nat) :
    j ∈ aliveIndices towers ↔
      ∃ t, towers[j]? = some t ∧ t.isAlive = true := by
  unfold aliveIndices
  rw [List.mem_filter, List.mem_range]
  constructor
  · rintro ⟨hlt, hp⟩
    cases hj : towers[j]? with
    | none => rw [hj] at hp; cases hp
    | some t => rw [hj] at hp; exact ⟨t, rfl, hp⟩
  · rintro ⟨t, hj, ha⟩
    refine ⟨(List.getElem?_eq_some_iff.mp hj).1, ?_⟩
    rw [hj]
    exact ha

theorem aliveIndices_nodup (towers : List Tower) :
    (aliveIndices towers).Nodup :=
  (List.nodup_range towers.length).filter _

theorem recordElimination_towers (g : Game) (pid : Nat) :
    (g.recordElimination pid).towers = g.towers := by
  unfold Game.recordElimination
  split_ifs <;> rfl

theorem recordElimination_turn (g : Game) (pid : Nat) :
    (g.recordElimination pid).turn = g.turn := by
  unfold Game.recordElimination
  split_ifs <;> rfl

theorem recordElimination_prevAttacks (g : Game) (pid : Nat) :
    (g.recordElimination pid).previousAttacks = g.previousAttacks := by
  unfold Game.recordElimination
  split_ifs <;> rfl

theorem recordElimination_mem (g : Game) (pid : Nat) :
    pid ∈ (g.recordElimination pid).eliminations.map Prod.fst := by
  unfold Game.recordElimination
  split_ifs with hany
  · rw [List.any_eq_true] at hany
    obtain ⟨e, he, hdec⟩ := hany
    rw [decide_eq_true_eq] at hdec
    exact List.mem_map.mpr ⟨e, he, hdec⟩
  · simp

theorem recordElimination_elims (g : Game) (pid : Nat) :
    (g.recordElimination pid).eliminations = g.eliminations ∨
    (g.recordElimination pid).eliminations = g.eliminations ++ [(pid, g.turn)] := by
  unfold Game.recordElimination
  split_ifs
  · exact Or.inl rfl
  · exact Or.inr rfl

theorem recordElimination_of_not_mem (g : Game) (pid : Nat)
    (h : pid ∉ g.eliminations.map Prod.fst) :
    (g.recordElimination pid).eliminations = g.eliminations ++ [(pid, g.turn)] := by
  unfold Game.recordElimination
  rw [if_neg]
  intro hany
  rw [List.any_eq_true] at hany
  obtain ⟨e, he, hdec⟩ := hany
  rw [decide_eq_true_eq] at hdec
  exact h (List.mem_map.mpr ⟨e, he, hdec⟩)

theorem recordElimination_of_mem (g : Game) (pid : Nat)
    (h : pid ∈ g.eliminations.map Prod.fst) :
    g.recordElimination pid = g := by
  unfold Game.recordElimination
  rw [if_pos]
  obtain ⟨e, he, hfst⟩ := List.mem_map.mp h
  rw [List.any_eq_true]
  exact ⟨e, he, decide_eq_true hfst⟩

-- ===== Elimination-extension relation =====

theorem elimExtend_refl (g : Game) : ElimExtend g g :=
  ⟨rfl, [], by simp, by simp⟩

theorem elimExtend_trans {g1 g2 g3 : Game}
    (h12 : ElimExtend g1 g2) (h23 : ElimExtend g2 g3) : ElimExtend g1 g3 := by
  obtain ⟨ht, l1, he, hl1⟩ := h12
  obtain ⟨ht2, l2, he2, hl2⟩ := h23
  refine ⟨ht2.trans ht, l1 ++ l2, by rw [he2, he, List.append_assoc], ?_⟩
  intro e hme
  rcases List.mem_append.mp hme with hm | hm
  · exact hl1 e hm
  · exact ht ▸ hl2 e hm

theorem elimExtend_of_eq {g g1 : Game} (ht : g1.turn = g.turn)
    (he : g1.eliminations = g.eliminations) : ElimExtend g g1 :=
  ⟨ht, [], by simp [he], by simp⟩

theorem elimExtend_record (g : Game) (pid : Nat) :
    ElimExtend g (g.recordElimination pid) := by
  refine ⟨recordElimination_turn g pid, ?_⟩
  rcases recordElimination_elims g pid with he | he
  · exact ⟨[], by simp [he], by simp⟩
  · exact ⟨[(pid, g.turn)], he, by simp⟩

theorem foldl_elimExtend_proj {σ α : Type _} (f : σ → Game) (step : σ → α → σ)
    (h : ∀ s a, ElimExtend (f s) (f (step s a))) :
    ∀ (l : List α) (s : σ), ElimExtend (f s) (f (l.foldl step s)) := by
  intro l
  induction l with
  | nil => intro s; exact elimExtend_refl _
  | cons a l ih => intro s; exact elimExtend_trans (h s a) (ih (step s a))

theorem elimExtend_fatigueStep (d : Int) (g : Game) (i : Nat) :
    ElimExtend g (fatigueStep d g i) := by
  unfold fatigueStep
  cases g.towers[i]? with
  | none => exact elimExtend_refl g
  | some t =>
    dsimp only
    split_ifs
    · exact elimExtend_trans (elimExtend_of_eq rfl rfl) (elimExtend_record _ _)
    · exact elimExtend_of_eq rfl rfl

theorem elimExtend_resolveAttack (g : Game) (atk : Attack) :
    ElimExtend g (resolveAttack g atk) := by
  unfold resolveAttack
  cases g.towers.find? (attackPred atk.targetId) with
  | none => exact elimExtend_refl g
  | some target =>
    dsimp only
    split_ifs
    · exact elimExtend_trans (elimExtend_of_eq rfl rfl) (elimExtend_record _ _)
    · exact elimExtend_of_eq rfl rfl
    · exact elimExtend_refl g

-- ===== Fatigue =====

theorem fatigueDamage_nonneg (turn : Nat) : 0 ≤ fatigueDamage turn := by
  unfold fatigueDamage
  split_ifs
  · exact le_refl 0
  · positivity

theorem fatigueStep_towers_len (d : Int) (g : Game) (i : Nat) :
    (fatigueStep d g i).towers.length = g.towers.length := by
  unfold fatigueStep
  cases g.towers[i]? with
  | none => rfl
  | some t =>
    dsimp only
    split_ifs
    · rw [recordElimination_towers]
      exact List.length_set g.towers i _
    · exact List.length_set g.towers i _

theorem fatigueStep_getElem_ne (d : Int) (g : Game) (i j : Nat) (h : i ≠ j) :
    (fatigueStep d g i).towers[j]? = g.towers[j]? := by
  unfold fatigueStep
  cases g.towers[i]? with
  | none => rfl
  | some t =>
    dsimp only
    split_ifs
    · rw [recordElimination_towers]
      exact List.getElem?_set_ne h
    · exact List.getElem?_set_ne h

theorem fatigueStep_getElem_self (d : Int) (g : Game) (i : Nat) :
    (fatigueStep d g i).towers[i]?
      = (g.towers[i]?).map (fun t => { t with hp := max 0 (t.hp - d) }) := by
  unfold fatigueStep
  cases hj : g.towers[i]? with
  | none => rw [hj]; rfl
  | some t =>
    dsimp only
    have hlt : i < g.towers.length := (List.getElem?_eq_some_iff.mp hj).1
    split_ifs
    · rw [recordElimination_towers]
      rw [List.getElem?_set_self hlt]
      rfl
    · rw [List.getElem?_set_self hlt]
      rfl

theorem fatigue_fold_spec (d : Int) :
    ∀ (l : List Nat) (g : Game), l.Nodup →
      ((l.foldl (fatigueStep d) g).towers.length = g.towers.length) ∧
      (∀ j, j ∉ l → (l.foldl (fatigueStep d) g).towers[j]? = g.towers[j]?) ∧
      (∀ j, j ∈ l → (l.foldl (fatigueStep d) g).towers[j]?
          = (g.towers[j]?).map (fun t => { t with hp := max 0 (t.hp - d) })) := by
  intro l
  induction l with
  | nil =>
    intro g _
    exact ⟨rfl, fun j _ => rfl, fun j hj => absurd hj (List.not_mem_nil j)⟩
  | cons i l ih =>
    intro g hnd
    obtain ⟨hinl, hndl⟩ := List.nodup_cons.mp hnd
    have hr := ih (fatigueStep d g i) hndl
    rw [List.foldl_cons]
    refine ⟨?_, ?_, ?_⟩
    · rw [hr.1, fatigueStep_towers_len]
    · intro j hj
      have hji : i ≠ j := fun he => hj (he ▸ List.mem_cons_self i l)
      have hjl : j ∉ l := fun hm => hj (List.mem_cons_of_mem i hm)
      rw [hr.2.1 j hjl, fatigueStep_getElem_ne d g i j hji]
    · intro j hj
      rcases List.mem_cons.mp hj with he | hm
      · subst he
        rw [hr.2.1 j hinl, fatigueStep_getElem_self]
      · have hji : i ≠ j := fun he => hinl (he ▸ hm)
        rw [hr.2.2 j hm, fatigueStep_getElem_ne d g i j hji]

theorem applyFatigue_towers (g : Game) :
    (applyFatigue g).towers = g.towers.map (fun t =>
      if t.isAlive then { t with hp := max 0 (t.hp - fatigueDamage g.turn) }
      else t) := by
  unfold applyFatigue
  split_ifs with hd
  case pos =>
    apply List.ext_getElem?
    intro j
    rw [List.getElem?_map]
    have hspec := fatigue_fold_spec (fatigueDamage g.turn) (aliveIndices g.towers)
      g (aliveIndices_nodup g.towers)
    by_cases hj : j ∈ aliveIndices g.towers
    · obtain ⟨t, hjt, ha⟩ := (mem_aliveIndices g.towers j).mp hj
      rw [hspec.2.2 j hj, hjt]
      simp [ha]
    · rw [hspec.2.1 j hj]
      cases hjt : g.towers[j]? with
      | none => rfl
      | some t =>
        have hna : ¬ t.isAlive = true := fun ha =>
          hj ((mem_aliveIndices g.towers j).mpr ⟨t, hjt, ha⟩)
        simp [hna]
  case neg =>
    have h0 : fatigueDamage g.turn = 0 :=
      le_antisymm (not_lt.mp hd) (fatigueDamage_nonneg g.turn)
    simp only [h0]
    have hid : ∀ t : Tower,
        (if t.isAlive then { t with hp := max 0 (t.hp - (0 : Int)) } else t) = t := by
      intro t
      by_cases ha : t.isAlive = true
      · rw [if_pos ha]
        have hpos : 0 < t.hp := by simpa [Tower.isAlive] using ha
        have hmax : max 0 (t.hp - (0 : Int)) = t.hp := by omega
        rw [hmax]
      · rw [if_neg ha]
    rw [List.map_congr_left (fun t _ => hid t)]
    exact (List.map_id g.towers).symm

theorem fatigue_fold_elim (d : Int) :
    ∀ (l : List Nat) (g : Game), l.Nodup → ∀ i, i ∈ l →
      ∀ t, g.towers[i]? = some t → max 0 (t.hp - d) ≤ 0 →
      t.playerId ∈ ((l.foldl (fatigueStep d) g).eliminations.map Prod.fst) := by
  intro l
  induction l with
  | nil => intro g _ i hi; exact absurd hi (List.not_mem_nil i)
  | cons j l ih =>
    intro g hnd i hi t ht hdead
    obtain ⟨hjnl, hndl⟩ := List.nodup_cons.mp hnd
    rw [List.foldl_cons]
    rcases List.mem_cons.mp hi with he | hm
    · subst he
      have hstep : t.playerId ∈ ((fatigueStep d g i).eliminations.map Prod.fst) := by
        unfold fatigueStep
        rw [ht]
        dsimp only
        rw [if_pos hdead]
        exact recordElimination_mem _ _
      obtain ⟨-, l2, he2, -⟩ := foldl_elimExtend_proj id (fatigueStep d)
        (fun g1 a => elimExtend_fatigueStep d g1 a) l (fatigueStep d g i)
      simp only [id] at he2
      rw [he2, List.map_append]
      exact List.mem_append_left _ hstep
    · have hji : j ≠ i := fun he => hjnl (he ▸ hm)
      refine ih (fatigueStep d g j) hndl i hm t ?_ hdead
      rw [fatigueStep_getElem_ne d g j i hji]
      exact ht

-- ===== Claim C6: fatigue =====

/-- Claim C6: fatigueDamage(t) is 0 before turn 25 and (t − 24)·5 from
turn 25 on (5, 10, 15 at turns 25, 26, 27); fatigue is applied after
combat resolution; each currently-alive tower's hp is reduced directly
by the damage (clamped at 0) with its armor unchanged and dead towers
untouched; and every alive tower whose hp reaches 0 triggers its own
elimination record. -/
theorem fatigue_application :
    (∀ t, t < 25 → fatigueDamage t = 0) ∧
    (∀ t, 25 ≤ t → fatigueDamage t = ((t : Int) - 24) * 5) ∧
    fatigueDamage 25 = 5 ∧ fatigueDamage 26 = 10 ∧ fatigueDamage 27 = 15 ∧
    (∀ (g : Game) (inp : AgentTurnInput),
      gameTurn g inp = applyFatigue (combatPhase (negotiationPhase
        (applyResourceGeneration { g with turn := g.turn + 1, diplomacy := [] })
        inp.negotiate) inp.combat)) ∧
    (∀ g : Game, (applyFatigue g).towers = g.towers.map (fun t =>
      if t.isAlive then { t with hp := max 0 (t.hp - fatigueDamage g.turn) }
      else t)) ∧
    (∀ (g : Game) (i : Nat) (t : Tower), g.towers[i]? = some t →
      t.isAlive = true → t.hp - fatigueDamage g.turn ≤ 0 →
      t.playerId ∈ ((applyFatigue g).eliminations.map Prod.fst)) := by
  refine ⟨?_, ?_, by decide, by decide, by decide, ?_, applyFatigue_towers, ?_⟩
  · intro t ht
    simp [fatigueDamage, FATIGUE_START_TURN, ht]
  · intro t ht
    unfold fatigueDamage FATIGUE_START_TURN
    rw [if_neg (by omega)]
    have hcast : ((t - 25 + 1 : Nat) : Int) = (t : Int) - 24 := by omega
    rw [hcast]
  · intro g inp
    rfl
  · intro g i t ht ha hd
    have hpos : 0 < t.hp := by simpa [Tower.isAlive] using ha
    have hdpos : 0 < fatigueDamage g.turn := by omega
    unfold applyFatigue
    rw [if_pos hdpos]
    exact fatigue_fold_elim (fatigueDamage g.turn) (aliveIndices g.towers) g
      (aliveIndices_nodup g.towers) i
      ((mem_aliveIndices g.towers i).mpr ⟨t, ht, ha⟩) t ht (by omega)

theorem fatigue_application_witness :
    fatigueDamage 24 = 0 ∧ fatigueDamage 30 = ((30 : Int) - 24) * 5 ∧
    1 ∈ ((applyFatigue fatigueDrawGame).eliminations.map Prod.fst) :=
  ⟨fatigue_application.1 24 (by decide),
   fatigue_application.2.1 30 (by decide),
   fatigue_application.2.2.2.2.2.2.2 fatigueDrawGame 0
     { mkTower 1 with hp := 5 } rfl (by decide) (by decide)⟩

-- ===== Claim C5: attack resolution =====

/-- Claim C5: queued attacks are resolved one at a time in queue order;
an attack on an alive target takes absorbed = min(armor, troopCount) off
the armor and the remainder off the hp, clamped at 0, mutating exactly
the found target; an attack on a dead target changes nothing; the queue
(collected per tower in order, each tower's attacks in submission order,
dead-target attacks included) replaces previousAttacks; and a target
with armor 30, hp 40 hit by 50 troops ends at armor 0, hp 20, not
eliminated. -/
theorem attack_resolution :
    (∀ (g : Game) (atk : Attack) (target : Tower),
      g.towers.find? (attackPred atk.targetId) = some target →
      target.isAlive = true →
      (resolveAttack g atk).towers
        = replaceFirst (attackPred atk.targetId)
            (damagedTower target atk.troopCount) g.towers ∧
      (damagedTower target atk.troopCount).armor
        = target.armor - min target.armor atk.troopCount ∧
      (damagedTower target atk.troopCount).hp
        = max 0 (target.hp - (atk.troopCount - min target.armor atk.troopCount)) ∧
      (damagedTower target atk.troopCount).playerId = target.playerId) ∧
    (∀ (g : Game) (atk : Attack) (target : Tower),
      g.towers.find? (attackPred atk.targetId) = some target →
      target.isAlive = false → resolveAttack g atk = g) ∧
    (∀ (g : Game) (atk : Attack) (rest : List Attack),
      resolveAttacks g (atk :: rest) = resolveAttacks (resolveAttack g atk) rest) ∧
    (∀ (g : Game) (resp : Nat → Option (List RawAction)),
      (combatPhase g resp).previousAttacks
        = (processPhase g (collectActions g resp)).2) ∧
    (∀ (t : Tower) (acts : List VAction),
      (processActions t acts).2 = acts.filterMap (attackOf t.playerId)) ∧
    ((resolveAttack attackDemoGame ⟨1, 2, 50⟩).towers
        = [mkTower 1, { mkTower 2 with hp := 20, armor := 0 }] ∧
      (resolveAttack attackDemoGame ⟨1, 2, 50⟩).eliminations = []) := by
  refine ⟨?_, ?_, ?_, ?_, ?_, ?_⟩
  · intro g atk target hfind halive
    refine ⟨?_, rfl, rfl, rfl⟩
    unfold resolveAttack
    rw [hfind]
    dsimp only
    rw [if_pos halive]
    split_ifs
    · rw [recordElimination_towers]
    · rfl
  · intro g atk target hfind halive
    unfold resolveAttack
    rw [hfind]
    dsimp only
    rw [if_neg (by rw [halive]; exact Bool.false_ne_true)]
  · intro g atk rest
    rfl
  · intro g resp
    rfl
  · intro t acts
    exact by simpa using (processGo_spec t.playerId acts t [] 0).2.2.2.1
  · constructor
    · norm_num [resolveAttack, attackDemoGame, attackPred, mkTower, damagedTower,
        Tower.isAlive, replaceFirst, List.find?, Game.recordElimination,
        STARTING_HP, STARTING_ARMOR, STARTING_RESOURCES, STARTING_LEVEL]
    · norm_num [resolveAttack, attackDemoGame, attackPred, mkTower, damagedTower,
        Tower.isAlive, replaceFirst, List.find?, Game.recordElimination,
        STARTING_HP, STARTING_ARMOR, STARTING_RESOURCES, STARTING_LEVEL]

theorem attack_resolution_witness :
    ({ mkTower 2 with hp := 40, armor := 30 } : Tower).isAlive = true ∧
    (resolveAttack attackDemoGame ⟨1, 2, 50⟩).towers
      = replaceFirst (attackPred 2)
          (damagedTower { mkTower 2 with hp := 40, armor := 30 } 50)
          attackDemoGame.towers :=
  ⟨by decide,
   (attack_resolution.1 attackDemoGame ⟨1, 2, 50⟩
     { mkTower 2 with hp := 40, armor := 30 }
     (by norm_num [attackDemoGame, attackPred, mkTower, List.find?,
       STARTING_HP, STARTING_ARMOR, STARTING_RESOURCES, STARTING_LEVEL])
     (by decide)).1⟩

-- ===== Claim C1: fatigue draw and rankings =====

/-- Claim C1 counterexample: when fatigue eliminates both remaining
towers in the same turn the outcome is indeed a draw, but the final
ranking gives the two towers (eliminated in the same turn 25) the
distinct ranks 1 and 2 — not the same tied rank the claim states. -/
theorem fatigue_draw_tie_counterexample :
    (applyFatigue fatigueDrawGame).getAliveTowers = [] ∧
    (applyFatigue fatigueDrawGame).getWinner = none ∧
    (applyFatigue fatigueDrawGame).getRankings
      = [(2, some 25, 1), (1, some 25, 2)] ∧
    ¬ (∀ r1 ∈ (applyFatigue fatigueDrawGame).getRankings,
        ∀ r2 ∈ (applyFatigue fatigueDrawGame).getRankings,
        r1.2.1 = r2.2.1 → r1.2.2 = r2.2.2) := by
  refine ⟨?_, ?_, ?_, ?_⟩ <;> decide

/-- Claim C1 (amended): if fatigue eliminates all remaining alive towers
in the same turn (zero towers alive at the termination check), the match
outcome is a draw with no winner, and the final ranking lists the
eliminated towers in reverse elimination order with consecutive distinct
ranks starting at rank 1 — the towers eliminated in that final turn get
the best remaining ranks but are not tied with each other. -/
theorem fatigue_draw_outcome (g : Game)
    (h : (applyFatigue g).getAliveTowers = []) :
    (applyFatigue g).getWinner = none ∧
    (applyFatigue g).getRankings
      = (applyFatigue g).eliminations.reverse.enum.map
          (fun p => (p.2.1, some p.2.2, p.1 + 1)) := by
  constructor
  · unfold Game.getWinner
    rw [h]
    simp
  · unfold Game.getRankings
    rw [h]
    simp only [List.map_nil, List.length_nil, List.nil_append]
    apply List.map_congr_left
    intro p _
    rw [Nat.zero_add, Nat.add_comm 1 p.1]

theorem fatigue_draw_outcome_witness :
    (applyFatigue fatigueDrawGame).getAliveTowers = [] ∧
    (applyFatigue fatigueDrawGame).getWinner = none :=
  ⟨by decide, (fatigue_draw_outcome fatigueDrawGame (by decide)).1⟩

-- ===== Elimination invariant machinery =====

theorem mem_of_getElem_some {α : Type _} {l : List α} {i : Nat} {a : α}
    (h : l[i]? = some a) : a ∈ l := by
  obtain ⟨hlt, heq⟩ := List.getElem?_eq_some_iff.mp h
  exact heq ▸ List.getElem_mem hlt

theorem pid_map_set_same (towers : List Tower) (i : Nat) (t nt : Tower)
    (hget : towers[i]? = some t) (hpid : nt.playerId = t.playerId) :
    (towers.set i nt).map Tower.playerId = towers.map Tower.playerId := by
  rw [List.map_set, hpid]
  apply list_set_same
  rw [List.getElem?_map, hget]
  rfl

theorem mem_set_unique_pid (towers : List Tower) (i : Nat) (t nt u : Tower)
    (hnd : (towers.map Tower.playerId).Nodup) (hget : towers[i]? = some t)
    (hmem : u ∈ towers.set i nt) (hpid : u.playerId = t.playerId) : u = nt := by
  obtain ⟨hlt, hgeq⟩ := List.getElem?_eq_some_iff.mp hget
  obtain ⟨j, hj, hje⟩ := List.mem_iff_getElem.mp hmem
  rw [List.length_set] at hj
  by_cases hij : j = i
  · subst hij
    rw [List.getElem_set_self] at hje
    exact hje.symm
  · rw [List.getElem_set_ne (fun he => hij he.symm)] at hje
    exfalso
    apply hij
    have hju : towers[j]? = some u := by
      rw [List.getElem?_eq_getElem hj, hje]
    have hj1 : (towers.map Tower.playerId)[j]? = some t.playerId := by
      rw [List.getElem?_map, hju]
      simp [hpid]
    have hi1 : (towers.map Tower.playerId)[i]? = some t.playerId := by
      rw [List.getElem?_map, hget]
      rfl
    exact List.getElem?_inj (by simpa using hj) hnd (hj1.trans hi1.symm)

theorem elimOk_of_eq {g g1 : Game} (ht : g1.towers = g.towers)
    (he : g1.eliminations = g.eliminations) (h : ElimOk g) : ElimOk g1 := by
  unfold ElimOk at h ⊢
  rw [ht, he]
  exact h

theorem elimOk_map (g : Game) (f : Tower → Tower)
    (hf : ∀ t, (f t).playerId = t.playerId ∧ (f t).hp = t.hp) (h : ElimOk g) :
    ElimOk { g with towers := g.towers.map f } := by
  obtain ⟨hnd, hiff, hend⟩ := h
  refine ⟨?_, ?_, hend⟩
  · show (List.map Tower.playerId (g.towers.map f)).Nodup
    rw [List.map_map]
    have hcomp : (Tower.playerId ∘ f) = Tower.playerId := funext fun t => (hf t).1
    rw [hcomp]
    exact hnd
  · intro t htm
    rw [List.mem_map] at htm
    obtain ⟨u, hu, rfl⟩ := htm
    rw [(hf u).1, (hf u).2]
    exact hiff u hu

theorem elimOk_nonHpUpdate (g : Game) (i : Nat) (t nt : Tower) (h : ElimOk g)
    (hget : g.towers[i]? = some t) (hpid : nt.playerId = t.playerId)
    (hhp : nt.hp = t.hp) :
    ElimOk { g with towers := g.towers.set i nt } := by
  obtain ⟨hnd, hiff, hend⟩ := h
  refine ⟨?_, ?_, hend⟩
  · show ((g.towers.set i nt).map Tower.playerId).Nodup
    rw [pid_map_set_same g.towers i t nt hget hpid]
    exact hnd
  · intro u hu
    rcases List.mem_or_eq_of_mem_set hu with hm | rfl
    · exact hiff u hm
    · rw [hpid, hhp]
      exact hiff t (mem_of_getElem_some hget)

theorem elimOk_hpUpdate (g : Game) (i : Nat) (t nt : Tower) (h : ElimOk g)
    (hget : g.towers[i]? = some t) (hpid : nt.playerId = t.playerId)
    (hhp : 0 ≤ nt.hp) (halive : 0 < t.hp) :
    ElimOk (if nt.hp ≤ 0 then
        Game.recordElimination { g with towers := g.towers.set i nt } nt.playerId
      else { g with towers := g.towers.set i nt }) := by
  obtain ⟨hnd, hiff, hend⟩ := h
  have htmem : t ∈ g.towers := mem_of_getElem_some hget
  have htrec : t.playerId ∉ g.eliminations.map Prod.fst := by
    intro hmem
    have := ((hiff t htmem).2).mpr hmem
    omega
  have hndset : ((g.towers.set i nt).map Tower.playerId).Nodup := by
    rw [pid_map_set_same g.towers i t nt hget hpid]
    exact hnd
  split_ifs with hdead
  · -- the update killed the tower: it gets recorded
    have hz : nt.hp = 0 := le_antisymm hdead hhp
    have hrec := recordElimination_of_not_mem
      { g with towers := g.towers.set i nt } nt.playerId
      (by rw [hpid]; exact htrec)
    refine ⟨?_, ?_, ?_⟩
    · rw [recordElimination_towers]
      exact hndset
    · intro u hu
      rw [recordElimination_towers] at hu
      rw [hrec]
      by_cases hupid : u.playerId = t.playerId
      · have hunt : u = nt :=
          mem_set_unique_pid g.towers i t nt u hnd hget hu hupid
        subst hunt
        constructor
        · omega
        · constructor
          · intro _
            rw [List.map_append]
            exact List.mem_append_right _ (by simp [hpid])
          · intro _
            exact hz
      · rcases List.mem_or_eq_of_mem_set hu with hm | rfl
        · have hu1 := hiff u hm
          refine ⟨hu1.1, ?_⟩
          rw [List.map_append]
          constructor
          · intro h0
            exact List.mem_append_left _ ((hu1.2).mp h0)
          · intro hmm
            rcases List.mem_append.mp hmm with hmm1 | hmm1
            · exact (hu1.2).mpr hmm1
            · exfalso
              apply hupid
              rw [hpid] at hmm1
              simpa using hmm1
        · exact absurd (hpid ▸ rfl) hupid
    · rw [hrec, List.map_append]
      refine nodup_append_single _ _ hend ?_
      simp only [List.map_cons, List.map_nil]
      rw [hpid]
      exact htrec
  · -- the tower survived the update
    have hz : 0 < nt.hp := by omega
    refine ⟨hndset, ?_, hend⟩
    intro u hu
    by_cases hupid : u.playerId = t.playerId
    · have hunt : u = nt :=
        mem_set_unique_pid g.towers i t nt u hnd hget hu hupid
      subst hunt
      refine ⟨hhp, ?_, ?_⟩
      · intro h0; omega
      · intro hmem
        rw [hpid] at hmem
        exact absurd hmem htrec
    · rcases List.mem_or_eq_of_mem_set hu with hm | rfl
      · exact hiff u hm
      · exact absurd (hpid ▸ rfl) hupid

-- ===== Per-phase preservation of the elimination invariant =====

theorem elimOk_fatigueStep (d : Int) (hd : 0 < d) (g : Game) (i : Nat)
    (h : ElimOk g) : ElimOk (fatigueStep d g i) := by
  unfold fatigueStep
  cases hget : g.towers[i]? with
  | none => exact h
  | some t =>
    dsimp only
    have h0 : 0 ≤ t.hp := (h.2.1 t (mem_of_getElem_some hget)).1
    by_cases hta : 0 < t.hp
    · exact elimOk_hpUpdate g i t { t with hp := max 0 (t.hp - d) } h hget rfl
        (le_max_left 0 (t.hp - d)) hta
    · -- already-dead tower: the update and the record are both no-ops
      have hz : t.hp = 0 := by omega
      have hmax : max 0 (t.hp - d) = t.hp := by omega
      have hnt : ({ t with hp := max 0 (t.hp - d) } : Tower) = t := by
        rw [hmax]
      rw [hnt, list_set_same g.towers i t hget]
      have hcond : max 0 (t.hp - d) ≤ 0 := by omega
      rw [if_pos hcond]
      have hmem : t.playerId ∈ g.eliminations.map Prod.fst :=
        ((h.2.1 t (mem_of_getElem_some hget)).2).mp hz
      rw [recordElimination_of_mem _ _ hmem]
      exact h

theorem find?_replaceFirst_set (p : Tower → Bool) (nt : Tower) :
    ∀ (l : List Tower) (t : Tower), l.find? p = some t →
      ∃ i, l[i]? = some t ∧ replaceFirst p nt l = l.set i nt := by
  intro l
  induction l with
  | nil => intro t h; simp at h
  | cons x ts ih =>
    intro t h
    cases hpx : p x with
    | true =>
      rw [List.find?_cons_of_pos _ hpx] at h
      injection h with h
      refine ⟨0, by rw [← h]; simp, ?_⟩
      unfold replaceFirst
      rw [if_pos hpx]
      rfl
    | false =>
      rw [List.find?_cons_of_neg _ (by simp [hpx])] at h
      obtain ⟨i, hi, hrep⟩ := ih t h
      refine ⟨i + 1, by simpa using hi, ?_⟩
      unfold replaceFirst
      rw [if_neg (by simp [hpx]), hrep]
      rfl

theorem elimOk_resolveAttack (g : Game) (atk : Attack) (h : ElimOk g) :
    ElimOk (resolveAttack g atk) := by
  unfold resolveAttack
  cases hfind : g.towers.find? (attackPred atk.targetId) with
  | none => exact h
  | some target =>
    dsimp only
    by_cases halive : target.isAlive = true
    · rw [if_pos halive]
      obtain ⟨i, hget, hrep⟩ :=
        find?_replaceFirst_set (attackPred atk.targetId)
          (damagedTower target atk.troopCount) g.towers target hfind
      rw [hrep]
      have hpos : 0 < target.hp := by simpa [Tower.isAlive] using halive
      exact elimOk_hpUpdate g i target (damagedTower target atk.troopCount) h
        hget rfl (le_max_left _ _) hpos
    · rw [if_neg halive]
      exact h

theorem processActions_hp_pid (t : Tower) (acts : List VAction) :
    (processActions t acts).1.hp = t.hp ∧
    (processActions t acts).1.playerId = t.playerId :=
  ⟨(processGo_spec t.playerId acts t [] 0).1,
   (processGo_spec t.playerId acts t [] 0).2.1⟩

theorem elimOk_processStep (m : List (Nat × List VAction))
    (acc : Game × List Attack) (i : Nat) (h : ElimOk acc.1) :
    ElimOk (processStep m acc i).1 := by
  unfold processStep
  cases hget : acc.1.towers[i]? with
  | none => exact h
  | some t =>
    dsimp only
    exact elimOk_nonHpUpdate acc.1 i t
      (processActions t (assocGet m t.playerId)).1 h hget
      (processActions_hp_pid t (assocGet m t.playerId)).2
      (processActions_hp_pid t (assocGet m t.playerId)).1

theorem elimOk_income (g : Game) (h : ElimOk g) :
    ElimOk (applyResourceGeneration g) :=
  elimOk_map g _ (fun t => by
    by_cases ha : t.isAlive = true
    · rw [if_pos ha]; exact ⟨rfl, rfl⟩
    · rw [if_neg ha]; exact ⟨rfl, rfl⟩) h

-- The negotiation phase only writes the diplomacy inbox.

theorem negMsgStep_projs (pid : Nat) (g : Game) (m : DiploMsg) :
    (negMsgStep pid g m).towers = g.towers ∧
    (negMsgStep pid g m).eliminations = g.eliminations ∧
    (negMsgStep pid g m).turn = g.turn := by
  unfold negMsgStep
  cases m with
  | other => exact ⟨rfl, rfl, rfl⟩
  | msg allyId atkTgt =>
    dsimp only
    split_ifs
    · exact ⟨rfl, rfl, rfl⟩
    · exact ⟨rfl, rfl, rfl⟩

theorem foldl_proj {σ α β : Type _} (f : σ → β) (step : σ → α → σ)
    (h : ∀ s a, f (step s a) = f s) :
    ∀ (l : List α) (s : σ), f (l.foldl step s) = f s := by
  intro l
  induction l with
  | nil => intro s; rfl
  | cons a l ih => intro s; rw [List.foldl_cons, ih, h]

theorem negTowerStep_projs (resp : Nat → Option (List DiploMsg)) (g : Game)
    (t : Tower) :
    (negTowerStep resp g t).towers = g.towers ∧
    (negTowerStep resp g t).eliminations = g.eliminations ∧
    (negTowerStep resp g t).turn = g.turn := by
  unfold negTowerStep
  cases resp t.playerId with
  | none => exact ⟨rfl, rfl, rfl⟩
  | some msgs =>
    dsimp only
    exact ⟨foldl_proj Game.towers _ (fun s a => (negMsgStep_projs _ s a).1) msgs g,
      foldl_proj Game.eliminations _ (fun s a => (negMsgStep_projs _ s a).2.1) msgs g,
      foldl_proj Game.turn _ (fun s a => (negMsgStep_projs _ s a).2.2) msgs g⟩

theorem negotiationPhase_projs (g : Game) (resp : Nat → Option (List DiploMsg)) :
    (negotiationPhase g resp).towers = g.towers ∧
    (negotiationPhase g resp).eliminations = g.eliminations ∧
    (negotiationPhase g resp).turn = g.turn := by
  unfold negotiationPhase
  exact ⟨foldl_proj Game.towers _ (fun s a => (negTowerStep_projs resp s a).1) _ g,
    foldl_proj Game.eliminations _ (fun s a => (negTowerStep_projs resp s a).2.1) _ g,
    foldl_proj Game.turn _ (fun s a => (negTowerStep_projs resp s a).2.2) _ g⟩

theorem elimOk_combatPhase (g : Game) (resp : Nat → Option (List RawAction))
    (h : ElimOk g) : ElimOk (combatPhase g resp) := by
  unfold combatPhase
  have h1 : ElimOk (processPhase g (collectActions g resp)).1 := by
    unfold processPhase
    exact foldl_preserve (fun acc : Game × List Attack => ElimOk acc.1)
      (processStep (collectActions g resp))
      (fun s a hs => elimOk_processStep _ s a hs) _ (g, []) h
  have h2 : ElimOk (resolveAttacks (processPhase g (collectActions g resp)).1
      (processPhase g (collectActions g resp)).2) := by
    unfold resolveAttacks
    exact foldl_preserve ElimOk resolveAttack
      (fun s a hs => elimOk_resolveAttack s a hs) _ _ h1
  exact elimOk_of_eq rfl rfl h2

theorem elimOk_applyFatigue (g : Game) (h : ElimOk g) :
    ElimOk (applyFatigue g) := by
  unfold applyFatigue
  split_ifs with hd
  · exact foldl_preserve ElimOk (fatigueStep (fatigueDamage g.turn))
      (fun s a hs => elimOk_fatigueStep (fatigueDamage g.turn) hd s a hs) _ g h
  · exact h

theorem elimOk_gameTurn (g : Game) (inp : AgentTurnInput) (h : ElimOk g) :
    ElimOk (gameTurn g inp) := by
  unfold gameTurn
  apply elimOk_applyFatigue
  apply elimOk_combatPhase
  have hneg := negotiationPhase_projs
    (applyResourceGeneration { g with turn := g.turn + 1, diplomacy := [] })
    inp.negotiate
  exact elimOk_of_eq hneg.1 hneg.2.1
    (elimOk_income { g with turn := g.turn + 1, diplomacy := [] }
      (elimOk_of_eq rfl rfl h))

theorem elimOk_mkGame (n : Nat) : ElimOk (mkGame n) := by
  refine ⟨?_, ?_, by simp [mkGame]⟩
  · show (((List.range n).map (fun i => mkTower (i + 1))).map Tower.playerId).Nodup
    rw [List.map_map]
    have hcomp : (Tower.playerId ∘ fun i => mkTower (i + 1)) = fun i => i + 1 :=
      funext fun i => rfl
    rw [hcomp]
    exact (List.nodup_range n).map (fun a b hab => by omega)
  · intro t htm
    simp only [mkGame, List.mem_map] at htm
    obtain ⟨i, -, rfl⟩ := htm
    refine ⟨by norm_num [mkTower, STARTING_HP], ?_⟩
    simp [mkTower, STARTING_HP, mkGame]

-- ===== Elimination extension through a full turn =====

theorem elimExtend_processStep (m : List (Nat × List VAction))
    (acc : Game × List Attack) (i : Nat) :
    ElimExtend acc.1 (processStep m acc i).1 := by
  unfold processStep
  cases acc.1.towers[i]? with
  | none => exact elimExtend_refl _
  | some t => exact elimExtend_of_eq rfl rfl

theorem elimExtend_combatPhase (g : Game)
    (resp : Nat → Option (List RawAction)) :
    ElimExtend g (combatPhase g resp) := by
  unfold combatPhase
  have h1 : ElimExtend g (processPhase g (collectActions g resp)).1 := by
    unfold processPhase
    exact foldl_elimExtend_proj Prod.fst (processStep (collectActions g resp))
      (fun s a => elimExtend_processStep _ s a) _ (g, [])
  have h2 := foldl_elimExtend_proj id resolveAttack
    (fun s a => elimExtend_resolveAttack s a)
    (processPhase g (collectActions g resp)).2
    (processPhase g (collectActions g resp)).1
  exact elimExtend_trans (elimExtend_trans h1 h2) (elimExtend_of_eq rfl rfl)

theorem elimExtend_negotiationPhase (g : Game)
    (resp : Nat → Option (List DiploMsg)) :
    ElimExtend g (negotiationPhase g resp) :=
  elimExtend_of_eq (negotiationPhase_projs g resp).2.2
    (negotiationPhase_projs g resp).2.1

theorem elimExtend_applyFatigue (g : Game) : ElimExtend g (applyFatigue g) := by
  unfold applyFatigue
  split_ifs with hd
  · exact foldl_elimExtend_proj id (fatigueStep (fatigueDamage g.turn))
      (fun s a => elimExtend_fatigueStep (fatigueDamage g.turn) s a) _ g
  · exact elimExtend_refl g

theorem gameTurn_elims (g : Game) (inp : AgentTurnInput) :
    (gameTurn g inp).turn = g.turn + 1 ∧
    ∃ l, (gameTurn g inp).eliminations = g.eliminations ++ l ∧
      ∀ e ∈ l, e.2 = g.turn + 1 := by
  have hext : ElimExtend { g with turn := g.turn + 1, diplomacy := [] }
      (gameTurn g inp) := by
    unfold gameTurn
    refine elimExtend_trans (elimExtend_trans ?_
      (elimExtend_combatPhase _ inp.combat)) (elimExtend_applyFatigue _)
    exact elimExtend_trans (elimExtend_of_eq rfl rfl)
      (elimExtend_negotiationPhase _ inp.negotiate)
  obtain ⟨ht, l, he, hl⟩ := hext
  exact ⟨ht, l, he, hl⟩

-- ===== Claim C8: elimination record invariant =====

/-- Claim C8: in every reachable match state a tower appears in the
eliminations list iff its hp is 0, each tower appears at most once, and
the record is append-only with every new entry carrying the turn in
which it was created — so a tower's entry records the turn its hp first
reached 0, even if later attacks or fatigue hit it again. -/
theorem elimination_invariant :
    (∀ g : Game, Reachable g → ElimOk g) ∧
    (∀ (g : Game) (inp : AgentTurnInput),
      (gameTurn g inp).turn = g.turn + 1 ∧
      ∃ l, (gameTurn g inp).eliminations = g.eliminations ++ l ∧
        ∀ e ∈ l, e.2 = g.turn + 1) := by
  constructor
  · intro g hr
    induction hr with
    | init n => exact elimOk_mkGame n
    | step g inp hr ih => exact elimOk_gameTurn g inp ih
  · exact gameTurn_elims

theorem elimination_invariant_witness :
    ElimOk (mkGame 4) ∧
    (gameTurn (mkGame 2) ⟨fun _ => none, fun _ => none⟩).turn
      = (mkGame 2).turn + 1 :=
  ⟨elimination_invariant.1 (mkGame 4) (Reachable.init 4),
   (elimination_invariant.2 (mkGame 2) ⟨fun _ => none, fun _ => none⟩).1⟩

-- ===== Claim C9: agent failures are locally absorbed =====

theorem respActions_congr (g : Game) (r1 r2 : Nat → Option (List RawAction))
    (h : ∀ p, (r1 p).getD [] = (r2 p).getD []) (t : Tower) :
    respActions g r1 t = respActions g r2 t := by
  unfold respActions
  have hp := h t.playerId
  cases h1 : r1 t.playerId with
  | none =>
    cases h2 : r2 t.playerId with
    | none => rfl
    | some acts =>
      rw [h1, h2] at hp
      simp only [Option.getD_none, Option.getD_some] at hp
      rw [← hp]
      rfl
  | some acts =>
    cases h2 : r2 t.playerId with
    | none =>
      rw [h1, h2] at hp
      simp only [Option.getD_none, Option.getD_some] at hp
      rw [hp]
      rfl
    | some acts2 =>
      rw [h1, h2] at hp
      simp only [Option.getD_some] at hp
      rw [hp]

theorem collectActions_congr (g : Game) (r1 r2 : Nat → Option (List RawAction))
    (h : ∀ p, (r1 p).getD [] = (r2 p).getD []) :
    collectActions g r1 = collectActions g r2 := by
  unfold collectActions
  apply foldl_congr_step
  intro m i
  unfold collectStep
  cases g.towers[i]? with
  | none => rfl
  | some t =>
    dsimp only
    rw [respActions_congr g r1 r2 h t]

theorem combatPhase_congr (g : Game) (r1 r2 : Nat → Option (List RawAction))
    (h : ∀ p, (r1 p).getD [] = (r2 p).getD []) :
    combatPhase g r1 = combatPhase g r2 := by
  unfold combatPhase
  rw [collectActions_congr g r1 r2 h]

theorem negotiationPhase_congr (g : Game)
    (r1 r2 : Nat → Option (List DiploMsg))
    (h : ∀ p, (r1 p).getD [] = (r2 p).getD []) :
    negotiationPhase g r1 = negotiationPhase g r2 := by
  unfold negotiationPhase
  apply foldl_congr_step
  intro g1 t
  unfold negTowerStep
  have hp := h t.playerId
  cases h1 : r1 t.playerId with
  | none =>
    cases h2 : r2 t.playerId with
    | none => rfl
    | some msgs =>
      rw [h1, h2] at hp
      simp only [Option.getD_none, Option.getD_some] at hp
      rw [← hp]
      rfl
  | some msgs =>
    cases h2 : r2 t.playerId with
    | none =>
      rw [h1, h2] at hp
      simp only [Option.getD_none, Option.getD_some] at hp
      rw [hp]
      rfl
    | some msgs2 =>
      rw [h1, h2] at hp
      simp only [Option.getD_some] at hp
      rw [hp]

/-- Claim C9: if the /combat call for a tower fails (transport error,
timeout, non-JSON body) or returns a non-array payload, that tower
contributes an empty action list for the turn, and the whole turn
result — every other tower's outcome included — is identical to the
turn in which that tower submitted an empty list, for arbitrary
(including successful) negotiate responses of all agents; symmetrically
for a failed /negotiate call with arbitrary combat responses.  The turn
step is a total function, so no in-match call failure aborts the run. -/
theorem agent_failure_isolated (g : Game) (neg : Nat → Option (List DiploMsg))
    (comb : Nat → Option (List RawAction)) (pid : Nat) :
    (gameTurn g { negotiate := neg, combat := Function.update comb pid none }
      = gameTurn g { negotiate := neg,
                     combat := Function.update comb pid (some []) }) ∧
    (gameTurn g { negotiate := Function.update neg pid none, combat := comb }
      = gameTurn g { negotiate := Function.update neg pid (some []),
                     combat := comb }) := by
  have hneg : ∀ p, ((Function.update neg pid none p).getD [])
      = ((Function.update neg pid (some []) p).getD []) := by
    intro p
    by_cases hp : p = pid
    · subst hp
      simp [Function.update_same]
    · simp [Function.update_noteq hp]
  have hcomb : ∀ p, ((Function.update comb pid none p).getD [])
      = ((Function.update comb pid (some []) p).getD []) := by
    intro p
    by_cases hp : p = pid
    · subst hp
      simp [Function.update_same]
    · simp [Function.update_noteq hp]
  constructor
  · unfold gameTurn
    dsimp only
    rw [combatPhase_congr _ _ _ hcomb]
  · unfold gameTurn
    dsimp only
    rw [negotiationPhase_congr _ _ _ hneg]

end KingdomWars
